import Mathlib

/-!
Shallow embedding of the spelling-bee puzzle generator (`main.go`).

Strings of the Go program are modelled as `List Char`; the Go byte/rune
distinction is irrelevant on the ASCII data these functions handle (non-ASCII
input is rejected by the same checks in both views, see the comments at the
individual definitions).  Channel pipelines are modelled as list-producing
functions: a stage that sends values on a channel becomes a function returning
the list of sent values in order.
-/

namespace SpellingBee

/-- The constant `alphabet = "abcdefghijklmnopqrstuvwxyz"` from the source. -/
def alphabet : List Char :=
  ['a', 'b', 'c', 'd', 'e', 'f', 'g', 'h', 'i', 'j', 'k', 'l', 'm',
   'n', 'o', 'p', 'q', 'r', 's', 't', 'u', 'v', 'w', 'x', 'y', 'z']

/-- `rest[0] > byte(c)` from `genAllStrings`: the guard accepting a suffix
whose first byte sorts strictly after `c`.  A generated suffix is never empty
in the source (it has length `n-1 ≥ 1`); the `[]` case is unreachable. -/
def firstGt (c : Char) : List Char → Bool
  | [] => false
  | r :: _ => c < r

/-- `genAllStrings(n, out)`: emits, in order, every string the Go generator
sends on `out`.  For each alphabet letter `c`: at `n = 1` emit `c` itself,
otherwise emit `c ++ rest` for every generated `rest` of length `n-1` whose
first character sorts strictly after `c`.  The source diverges for `n ≤ 0`
(the recursion never reaches its base case); callers only use `n ≥ 1`, and the
`0` case here is an arbitrary total completion. -/
def genAllStrings : Nat → List (List Char)
  | 0 => []
  | 1 => alphabet.map (fun c => [c])
  | n + 2 => alphabet.flatMap (fun c =>
      (((genAllStrings (n + 1)).filter (fun rest => firstGt c rest)).map
        (fun rest => c :: rest)))

/-- One pass of `rotate`'s inner loop: for `i = 0 .. len(s)-1`,
`first, rest := s[:i], s[i:]` and `rest + first` is emitted. -/
def rotations (s : List Char) : List (List Char) :=
  (List.range s.length).map (fun i => s.drop i ++ s.take i)

/-- `rotate(in, out)`: emits all rotations of each incoming string, in input
order. -/
def rotate (input : List (List Char)) : List (List Char) :=
  input.flatMap rotations

/-- `containsOnly(s, target)`: true iff every rune of `s` occurs in `target`
(the source materialises `target`'s runes as a set; set membership is list
membership). -/
def containsOnly (s target : List Char) : Bool :=
  s.all (fun r => target.contains r)

/-- The loop body state of `hasAtMostLetters`: `cs` is the set of runes seen
so far, kept as a duplicate-free list; the Go map insert is "cons if new". -/
def hasAtMostLettersGo (n : Nat) (cs : List Char) : List Char → Bool
  | [] => true
  | c :: rest =>
      let cs' := if c ∈ cs then cs else c :: cs
      if n < cs'.length then false else hasAtMostLettersGo n cs' rest

/-- `hasAtMostLetters(s, n)`: scans `s` accumulating the set of distinct runes
and fails as soon as the set exceeds `n`. -/
def hasAtMostLetters (s : List Char) (n : Nat) : Bool :=
  hasAtMostLettersGo n [] s

/-- ASCII whitespace recognised by `strings.TrimSpace`.  (TrimSpace also trims
non-ASCII Unicode spaces; no claim involves those, and any word containing one
elsewhere is rejected by `containsOnly` in both views.) -/
def isSpace (c : Char) : Bool :=
  c = ' ' || c = '\t' || c = '\n' || c = '\x0b' || c = '\x0c' || c = '\r'

/-- `strings.TrimSpace`: drop leading and trailing whitespace. -/
def trimSpace (w : List Char) : List Char :=
  ((w.dropWhile isSpace).reverse.dropWhile isSpace).reverse

/-- The sequence of lines the `genAllWords` read loop actually processes.
`bufio.Reader.ReadBytes('\n')` returns the bytes up to and including the next
newline; at end of input it returns the remaining bytes with `err = io.EOF`,
and the loop `break`s on `io.EOF` WITHOUT processing those bytes.  Hence only
newline-terminated lines are processed; a trailing fragment with no newline is
dropped.  Lines are returned without their terminating newline (which
`TrimSpace` would strip anyway). -/
def completedLines : List Char → List (List Char)
  | [] => []
  | c :: rest =>
      if c = '\n' then [] :: completedLines rest
      else
        match completedLines rest with
        | [] => []
        | l :: ls => (c :: l) :: ls

/-- The per-word retention test of `genAllWords` applied to a trimmed line:
length ≥ 5, only alphabet runes, at most `n` distinct runes.  (Go's `len(w)`
counts bytes while `w.length` counts chars; the two filters agree on every
word, since a word where they differ contains a non-ASCII rune and is rejected
by `containsOnly w alphabet` in both views.) -/
def wordOK (n : Nat) (w : List Char) : Bool :=
  !(w.length < 5) && containsOnly w alphabet && hasAtMostLetters w n

/-- `genAllWords()`: the retained dictionary, as a function of the word file's
content.  Each completed line is trimmed and kept iff it passes `wordOK`. -/
def genAllWords (n : Nat) (content : List Char) : List (List Char) :=
  ((completedLines content).map trimSpace).filter (fun w => wordOK n w)

/-- The `puzzle` struct of the source. -/
structure puzzle where
  letters : List Char
  words : List (List Char)
  maxPts : Nat
  deriving DecidableEq, Repr

/-- The word filter inside `matchWords`' scan loop: the word must contain the
first character `s[0]` of the variant, and only letters of `s`.
(`strings.Contains(word, string(s[0]))` searches for the one-character string
`s[0]`; for the ASCII `s[0]` this is rune membership.)  The source indexes
`s[0]`, which panics on an empty `s`; variants are never empty, and `headI`
is the arbitrary total completion of that read. -/
def qualifies (s w : List Char) : Bool :=
  w.contains s.headI && containsOnly w s

/-- The `containsAll` test of the scoring loop: `w` contains every rune of
`s`. -/
def isPangram (s w : List Char) : Bool :=
  s.all (fun c => w.contains c)

/-- One step of the scoring loop: `maxPts += 3` and `someContainsAll = true`
for a pangram, else `maxPts += 1`. -/
def scoreStep (s : List Char) (acc : Nat × Bool) (w : List Char) : Nat × Bool :=
  if isPangram s w then (acc.1 + 3, true) else (acc.1 + 1, acc.2)

/-- The scoring loop of `matchWords`: returns `(maxPts, someContainsAll)`
after scanning `ws` starting from `maxPts = 0`, `someContainsAll = false`. -/
def scoreWords (s : List Char) (ws : List (List Char)) : Nat × Bool :=
  ws.foldl (scoreStep s) (0, false)

/-- The body of `matchWords` for one incoming variant `s`: filter the
dictionary, reject when fewer than 10 words qualify, score, reject when no
qualifying word is a pangram, otherwise build the puzzle. -/
def matchOne (allWords : List (List Char)) (s : List Char) : Option puzzle :=
  let words := allWords.filter (fun w => qualifies s w)
  if words.length < 10 then none
  else
    let sc := scoreWords s words
    if !sc.2 then none
    else some { letters := s, words := words, maxPts := sc.1 }

/-- `matchWords(allWords, in, out)`: one worker draining its share of the
variant stream emits, in order, the puzzles of the variants it consumed. -/
def matchWords (allWords : List (List Char)) (variants : List (List Char)) :
    List puzzle :=
  variants.filterMap (matchOne allWords)

/-- A file produced by the program: its name and full contents. -/
structure FileOut where
  name : List Char
  contents : List Char
  deriving DecidableEq, Repr

/-- `fmt.Fprintln(f, x)` on a file modelled as its accumulated contents:
append the printed text and a newline. -/
def fprintln (f : List Char) (line : List Char) : List Char :=
  f ++ line ++ ['\n']

/-- Decimal rendering of the score, as printed by `fmt.Fprintln(f, p.maxPts)`. -/
def decimalChars (n : Nat) : List Char :=
  (Nat.repr n).toList

/-- The body of `writePuzzles` for one puzzle: create `<letters>.txt`
(empty), `Fprintln` each word, then `Fprintln` the score. -/
def writePuzzleFile (p : puzzle) : FileOut :=
  { name := p.letters ++ ['.', 't', 'x', 't']
    contents := fprintln (p.words.foldl fprintln []) (decimalChars p.maxPts) }

/-- `writePuzzles(in)`: the files written while draining the puzzle channel,
in consumption order. -/
def writePuzzles (ps : List puzzle) : List FileOut :=
  ps.map writePuzzleFile

/-- Result of a whole run: `log.Fatalf` terminates the process, otherwise the
pipeline runs to completion and produces a list of files. -/
inductive RunResult where
  | fatal : RunResult
  | finished : List FileOut → RunResult
  deriving DecidableEq

/-- The files a run produced: none when it died on `log.Fatalf`. -/
def outputFiles : RunResult → List FileOut
  | RunResult.fatal => []
  | RunResult.finished fs => fs

/-- `main` as a function of the word file (`none` = missing/unreadable) and
`num_letters`.  `genAllWords` runs before any matcher starts; `os.Open`
failure hits `log.Fatalf("Open(%q): %v", ...)`, killing the process before
any puzzle is matched or written.  On success the pipeline is generation →
rotation → matching → writing. -/
def runMain (wordsFile : Option (List Char)) (n : Nat) : RunResult :=
  match wordsFile with
  | none => RunResult.fatal
  | some content =>
      RunResult.finished
        (writePuzzles
          (matchWords (genAllWords n content) (rotate (genAllStrings n))))

/-- Concrete test fixture: a ten-word dictionary over the letters `a`,`b`,
every word containing `a`. -/
def dictAB : List (List Char) :=
  [['a'], ['a', 'a'], ['a', 'b'], ['b', 'a'], ['a', 'a', 'b'],
   ['a', 'b', 'b'], ['b', 'a', 'b'], ['b', 'b', 'a'], ['a', 'a', 'a'],
   ['a', 'b', 'a']]

/-- Concrete test fixture: the puzzle the matcher emits for variant `"ab"`
over `dictAB` (7 pangrams and 3 plain words: 7·3 + 3·1 = 24 points). -/
def puzzleAB : puzzle :=
  { letters := ['a', 'b'], words := dictAB, maxPts := 24 }

end SpellingBee

namespace SpellingBee

/-! ### Helper lemmas -/

theorem foldl_fprintln (ws : List (List Char)) :
    ∀ acc : List Char,
      ws.foldl fprintln acc = acc ++ (ws.map (fun w => w ++ ['\n'])).flatten := by
  induction ws with
  | nil => intro acc; simp
  | cons w ws ih =>
      intro acc
      simp [ih, fprintln, List.append_assoc]

theorem drop_one_append_take_one_eq_rotate (t : List Char) :
    t.drop 1 ++ t.take 1 = t.rotate 1 := by
  cases t with
  | nil => simp
  | cons a l =>
      have h := List.rotate_cons_succ l a 0
      simp only [List.rotate_zero] at h
      simp [h]

theorem rotate_one_iterate (k : Nat) (t : List Char) :
    (fun u : List Char => u.drop 1 ++ u.take 1)^[k] t = t.rotate k := by
  induction k generalizing t with
  | zero => simp
  | succ m ih =>
      rw [Function.iterate_succ_apply, drop_one_append_take_one_eq_rotate]
      rw [ih, List.rotate_rotate, Nat.add_comm]

theorem length_rotate_stage (input : List (List Char)) (N : Nat)
    (h : ∀ t ∈ input, t.length = N) :
    (rotate input).length = N * input.length := by
  induction input with
  | nil => simp [rotate]
  | cons t ts ih =>
      have ht : t.length = N := h t (by simp)
      have ih' := ih (fun u hu => h u (by simp [hu]))
      simp only [rotate, List.flatMap_cons, List.length_append] at *
      simp [rotations, ht, ih', Nat.mul_succ, Nat.add_comm]

/-! ### Claims -/

/-- C6: the Rotation Expander emits, for an input string of length N, exactly
its N cyclic rotations in rotation-index order starting at 0 (rotation `i` is
`s[i:] ++ s[:i]`), its output count is N times its input count, and rotating
by one position N times is the identity. -/
theorem claim_C6_rotation_expander (s : List Char) (input : List (List Char))
    (N : Nat) (hs : s.length = N) (h : ∀ t ∈ input, t.length = N) :
    rotations s = (List.range N).map (fun i => s.rotate i) ∧
    (rotations s).length = N ∧
    (rotate input).length = N * input.length ∧
    (fun u : List Char => u.drop 1 ++ u.take 1)^[N] s = s := by
  refine ⟨?_, ?_, length_rotate_stage input N h, ?_⟩
  · subst hs
    unfold rotations
    apply List.map_congr_left
    intro i hi
    exact (List.rotate_eq_drop_append_take (Nat.le_of_lt (List.mem_range.mp hi))).symm
  · simp [rotations, hs]
  · rw [rotate_one_iterate, ← hs, List.rotate_length]

theorem claim_C6_witness :
    (['a', 'b'] : List Char).length = 2 ∧ (∀ t ∈ [['a', 'b']], t.length = 2) ∧
      (rotations ['a', 'b'] = (List.range 2).map (fun i => (['a', 'b'] : List Char).rotate i) ∧
       (rotations ['a', 'b']).length = 2 ∧
       (rotate [['a', 'b']]).length = 2 * [['a', 'b']].length ∧
       (fun u : List Char => u.drop 1 ++ u.take 1)^[2] ['a', 'b'] = ['a', 'b']) :=
  ⟨by decide, by decide,
    claim_C6_rotation_expander ['a', 'b'] [['a', 'b']] 2 (by decide) (by decide)⟩

/-- C7: for every consumed puzzle the writer produces the file
`<letters>.txt` whose contents are each qualifying word on its own line in
the order provided, then one trailing line with the decimal total score, and
nothing else. -/
theorem claim_C7_puzzle_writer (p : puzzle) :
    writePuzzleFile p =
      { name := p.letters ++ ['.', 't', 'x', 't'],
        contents := (p.words.map (fun w => w ++ ['\n'])).flatten
          ++ decimalChars p.maxPts ++ ['\n'] } := by
  unfold writePuzzleFile
  rw [foldl_fprintln]
  simp [fprintln, List.append_assoc]

/-- C9: a missing/unreadable dictionary is fatal at startup: the run dies
before any pipeline work and produces no output file. -/
theorem claim_C9_fatal_startup (n : Nat) :
    runMain none n = RunResult.fatal ∧ outputFiles (runMain none n) = [] :=
  ⟨rfl, rfl⟩

theorem completedLines_of_no_newline (w : List Char) (h : '\n' ∉ w) :
    completedLines w = [] := by
  induction w with
  | nil => rfl
  | cons c rest ih =>
      have hc : ¬c = '\n' := fun hc => h (by simp [hc])
      have hr : completedLines rest = [] := ih (fun hm => h (by simp [hm]))
      simp only [completedLines, if_neg hc, hr]

theorem completedLines_append_no_newline (content w : List Char)
    (h : '\n' ∉ w) : completedLines (content ++ w) = completedLines content := by
  induction content with
  | nil => simpa using completedLines_of_no_newline w h
  | cons c rest ih =>
      show completedLines (c :: (rest ++ w)) = completedLines (c :: rest)
      by_cases hc : c = '\n'
      · simp only [completedLines, if_pos hc, ih]
      · simp only [completedLines, if_neg hc, ih]

/-- C10: a final word-source line not terminated by a newline is discarded by
the Dictionary Loader (the read loop breaks on `io.EOF` before processing the
bytes just read), whatever the final word's content — in particular even when
it satisfies every retention criterion. -/
theorem claim_C10_unterminated_final_line (n : Nat) (content w : List Char)
    (h : '\n' ∉ w) :
    genAllWords n (content ++ w) = genAllWords n content := by
  unfold genAllWords
  rw [completedLines_append_no_newline content w h]

theorem claim_C10_witness :
    '\n' ∉ (['a', 'b', 'c', 'd', 'e'] : List Char) ∧
      wordOK 7 ['a', 'b', 'c', 'd', 'e'] = true ∧
      genAllWords 7
          (['f', 'g', 'h', 'i', 'j', '\n'] ++ ['a', 'b', 'c', 'd', 'e']) =
        genAllWords 7 ['f', 'g', 'h', 'i', 'j', '\n'] :=
  ⟨by decide, by decide,
    claim_C10_unterminated_final_line 7 ['f', 'g', 'h', 'i', 'j', '\n']
      ['a', 'b', 'c', 'd', 'e'] (by decide)⟩

end SpellingBee

namespace SpellingBee

/-! ### Dictionary Loader: distinct-letter counting -/

theorem bool_eq_decide (b : Bool) (p : Prop) [Decidable p] (h : b = true ↔ p) :
    b = decide p := by
  rcases Bool.eq_false_or_eq_true b with hb | hb <;> subst hb <;> simp_all

theorem ite_insert_toFinset (c : Char) (cs : List Char) :
    (if c ∈ cs then cs else c :: cs).toFinset = insert c cs.toFinset := by
  by_cases h : c ∈ cs
  · rw [if_pos h]
    exact (Finset.insert_eq_self.mpr (List.mem_toFinset.mpr h)).symm
  · rw [if_neg h]
    simp

theorem ite_insert_nodup (c : Char) (cs : List Char) (h : cs.Nodup) :
    (if c ∈ cs then cs else c :: cs).Nodup := by
  by_cases hm : c ∈ cs
  · simpa [hm] using h
  · simp [hm, h]

theorem hasAtMostLettersGo_spec (n : Nat) (l : List Char) :
    ∀ cs : List Char, cs.Nodup → cs.length ≤ n →
      (hasAtMostLettersGo n cs l = true ↔ (cs.toFinset ∪ l.toFinset).card ≤ n) := by
  induction l with
  | nil =>
      intro cs hnd hlen
      constructor
      · intro _
        simpa [List.toFinset_card_of_nodup hnd] using hlen
      · intro _
        rfl
  | cons c rest ih =>
      intro cs hnd hlen
      have hnd' : (if c ∈ cs then cs else c :: cs).Nodup := ite_insert_nodup c cs hnd
      have hfin : (if c ∈ cs then cs else c :: cs).toFinset = insert c cs.toFinset :=
        ite_insert_toFinset c cs
      have hcard : (if c ∈ cs then cs else c :: cs).length = (insert c cs.toFinset).card := by
        rw [← hfin]
        exact (List.toFinset_card_of_nodup hnd').symm
      have hsets : (if c ∈ cs then cs else c :: cs).toFinset ∪ rest.toFinset =
          cs.toFinset ∪ (c :: rest).toFinset := by
        rw [hfin, List.toFinset_cons, Finset.insert_union, Finset.union_insert]
      show (if n < (if c ∈ cs then cs else c :: cs).length then false
          else hasAtMostLettersGo n (if c ∈ cs then cs else c :: cs) rest) = true ↔ _
      by_cases hgt : n < (if c ∈ cs then cs else c :: cs).length
      · rw [if_pos hgt]
        constructor
        · intro hfalse
          exact absurd hfalse (by simp)
        · intro hle
          exfalso
          have hsub : (if c ∈ cs then cs else c :: cs).toFinset ⊆
              cs.toFinset ∪ (c :: rest).toFinset := by
            rw [← hsets]
            exact Finset.subset_union_left
          have := Finset.card_le_card hsub
          rw [hfin] at this
          omega
      · rw [if_neg hgt]
        rw [ih (if c ∈ cs then cs else c :: cs) hnd' (by omega), hsets]

theorem hasAtMostLetters_iff (s : List Char) (n : Nat) :
    hasAtMostLetters s n = true ↔ s.toFinset.card ≤ n := by
  have h := hasAtMostLettersGo_spec n s [] List.nodup_nil (Nat.zero_le n)
  simpa [hasAtMostLetters] using h

/-- C5: a line of the word source is retained (after trimming) iff it has
length ≥ 5, consists only of lowercase letters a–z, and has at most `n`
distinct letters; everything else is skipped. -/
theorem claim_C5_dictionary_loader (n : Nat) (content : List Char) :
    genAllWords n content =
      ((completedLines content).map trimSpace).filter
        (fun w => decide (5 ≤ w.length) && w.all (fun c => decide (c ∈ alphabet)) &&
          decide (w.toFinset.card ≤ n)) := by
  unfold genAllWords
  apply List.filter_congr
  intro w _
  unfold wordOK
  have h1 : (!decide (w.length < 5)) = decide (5 ≤ w.length) := by
    rw [← decide_not]
    exact decide_eq_decide.mpr Nat.not_lt
  have h2 : containsOnly w alphabet = w.all (fun c => decide (c ∈ alphabet)) := by
    unfold containsOnly
    congr 1
    funext c
    simp [List.elem_iff]
  have h3 : hasAtMostLetters w n = decide (w.toFinset.card ≤ n) :=
    bool_eq_decide _ _ (hasAtMostLetters_iff w n)
  rw [h1, h2, h3]

end SpellingBee

namespace SpellingBee

/-! ### Matcher: scoring loop lemmas -/

theorem scoreFold_snd (s : List Char) (ws : List (List Char)) :
    ∀ (a : Nat) (b : Bool),
      (ws.foldl (scoreStep s) (a, b)).2 = (b || ws.any (fun w => isPangram s w)) := by
  induction ws with
  | nil => intro a b; simp
  | cons w ws ih =>
      intro a b
      by_cases hp : isPangram s w = true
      · simp [scoreStep, hp, ih]
      · simp [scoreStep, hp, ih]

theorem scoreFold_fst (s : List Char) (ws : List (List Char)) :
    ∀ (a : Nat) (b : Bool),
      (ws.foldl (scoreStep s) (a, b)).1 =
        a + 3 * (ws.filter (fun w => isPangram s w)).length +
          (ws.filter (fun w => !isPangram s w)).length := by
  induction ws with
  | nil => intro a b; simp
  | cons w ws ih =>
      intro a b
      by_cases hp : isPangram s w = true
      · have hstep : scoreStep s (a, b) w = (a + 3, true) := by
          simp [scoreStep, hp]
        rw [List.foldl_cons, hstep, ih, List.filter_cons, List.filter_cons]
        simp only [hp, if_pos, Bool.not_true, if_neg, List.length_cons]
        simp
        omega
      · have hstep : scoreStep s (a, b) w = (a + 1, b) := by
          simp [scoreStep, hp]
        rw [List.foldl_cons, hstep, ih, List.filter_cons, List.filter_cons]
        rw [Bool.not_eq_true] at hp
        simp only [hp, Bool.not_false, if_pos, if_neg, List.length_cons]
        simp
        omega

/-- C2: for a variant `s` and a dictionary, the matcher emits a puzzle iff at
least 10 words qualify and at least one qualifying word is a pangram for `s`;
otherwise no puzzle is emitted. -/
theorem claim_C2_puzzle_emission (allWords : List (List Char)) (s : List Char) :
    (matchOne allWords s).isSome = true ↔
      (10 ≤ (allWords.filter (fun w => qualifies s w)).length ∧
        ∃ w ∈ allWords, qualifies s w = true ∧ isPangram s w = true) := by
  have hsnd : (scoreWords s (allWords.filter (fun w => qualifies s w))).2 =
      (allWords.filter (fun w => qualifies s w)).any (fun w => isPangram s w) := by
    simpa [scoreWords] using scoreFold_snd s (allWords.filter (fun w => qualifies s w)) 0 false
  simp only [matchOne]
  split_ifs with h1 h2
  · simp only [Option.isSome_none, Bool.false_eq_true, false_iff, not_and]
    intro hle
    omega
  · simp only [Option.isSome_none, Bool.false_eq_true, false_iff, not_and]
    intro _
    rintro ⟨w, hw, hq, hp⟩
    have hmem : w ∈ allWords.filter (fun w => qualifies s w) :=
      List.mem_filter.mpr ⟨hw, hq⟩
    have hany : (allWords.filter (fun w => qualifies s w)).any
        (fun w => isPangram s w) = true :=
      List.any_eq_true.mpr ⟨w, hmem, hp⟩
    rw [hsnd, hany] at h2
    simp at h2
  · simp only [Option.isSome_some, true_iff]
    refine ⟨by omega, ?_⟩
    rw [hsnd] at h2
    have hany : (allWords.filter (fun w => qualifies s w)).any
        (fun w => isPangram s w) = true := by
      rcases Bool.eq_false_or_eq_true ((allWords.filter (fun w => qualifies s w)).any
        (fun w => isPangram s w)) with hb | hb
      · exact hb
      · rw [hb] at h2
        simp at h2
    obtain ⟨w, hw, hp⟩ := List.any_eq_true.mp hany
    obtain ⟨hwa, hq⟩ := List.mem_filter.mp hw
    exact ⟨w, hwa, hq, hp⟩

/-- C3: for every emitted puzzle over variant `s`, the total score is 3 per
qualifying pangram plus 1 per qualifying non-pangram. -/
theorem claim_C3_score (allWords : List (List Char)) (s : List Char) (p : puzzle)
    (h : matchOne allWords s = some p) :
    p.maxPts = 3 * (p.words.filter (fun w => isPangram s w)).length +
      (p.words.filter (fun w => !isPangram s w)).length := by
  simp only [matchOne] at h
  split_ifs at h
  have hp := Option.some.inj h
  rw [← hp]
  have hfst := scoreFold_fst s (allWords.filter (fun w => qualifies s w)) 0 false
  simpa [scoreWords] using hfst

theorem claim_C3_witness :
    matchOne dictAB ['a', 'b'] = some puzzleAB ∧
      puzzleAB.maxPts =
        3 * (puzzleAB.words.filter (fun w => isPangram ['a', 'b'] w)).length +
          (puzzleAB.words.filter (fun w => !isPangram ['a', 'b'] w)).length :=
  ⟨by decide, claim_C3_score dictAB ['a', 'b'] puzzleAB (by decide)⟩

/-- C4: a word `w` qualifies for variant `c :: s'` iff it contains the
mandatory letter `c` (= `s[0]`) and uses only letters of the variant; and an
emitted puzzle's word list is exactly the dictionary filtered by that test,
hence in dictionary scan order. -/
theorem claim_C4_word_qualification (allWords : List (List Char)) (c : Char)
    (s' : List Char) (w : List Char) :
    (qualifies (c :: s') w = true ↔ (c ∈ w ∧ ∀ x ∈ w, x ∈ c :: s')) ∧
    (matchOne allWords (c :: s')).map puzzle.words =
      (matchOne allWords (c :: s')).map
        (fun _ => allWords.filter (fun u => qualifies (c :: s') u)) := by
  constructor
  · unfold qualifies containsOnly
    simp [List.elem_iff, List.all_eq_true, List.headI]
  · simp only [matchOne]
    split_ifs <;> simp

end SpellingBee

namespace SpellingBee

/-- C8: the set of puzzles the Matcher Pool emits does not depend on how the
variant stream is split among workers: any sharding whose shards together are
a permutation of the variant list (each variant consumed by exactly one
worker) yields the same set of puzzles as a single worker scanning the whole
list.  `matchOne` is pure, so only membership, not order, can differ. -/
theorem claim_C8_worker_partition (allWords : List (List Char))
    (variants : List (List Char)) (shards : List (List (List Char)))
    (h : shards.flatten.Perm variants) :
    ((shards.map (matchWords allWords)).flatten).toFinset =
      (matchWords allWords variants).toFinset := by
  ext p
  simp only [List.mem_toFinset]
  rw [List.mem_flatten]
  constructor
  · rintro ⟨l, hl, hq⟩
    obtain ⟨shard, hshard, rfl⟩ := List.mem_map.mp hl
    obtain ⟨v, hv, hm⟩ := List.mem_filterMap.mp hq
    exact List.mem_filterMap.mpr
      ⟨v, h.mem_iff.mp (List.mem_flatten.mpr ⟨shard, hshard, hv⟩), hm⟩
  · intro hq
    obtain ⟨v, hv, hm⟩ := List.mem_filterMap.mp hq
    obtain ⟨shard, hshard, hvs⟩ := List.mem_flatten.mp (h.mem_iff.mpr hv)
    exact ⟨matchWords allWords shard, List.mem_map.mpr ⟨shard, hshard, rfl⟩,
      List.mem_filterMap.mpr ⟨v, hvs, hm⟩⟩

theorem claim_C8_witness :
    ([[['a', 'b']], [], [['b', 'a']]] : List (List (List Char))).flatten.Perm
        [['b', 'a'], ['a', 'b']] ∧
      (([[['a', 'b']], [], [['b', 'a']]].map (matchWords dictAB)).flatten).toFinset =
        (matchWords dictAB [['b', 'a'], ['a', 'b']]).toFinset :=
  ⟨by decide,
    claim_C8_worker_partition dictAB [['b', 'a'], ['a', 'b']]
      [[['a', 'b']], [], [['b', 'a']]] (by decide)⟩

end SpellingBee

namespace SpellingBee

/-! ### Combination Generator -/

theorem alphabet_nodup : alphabet.Nodup := by decide

theorem alphabet_pairwise_lt : alphabet.Pairwise (· < ·) := by decide

theorem mem_genAllStrings (n : Nat) : ∀ xs : List Char,
    xs ∈ genAllStrings (n + 1) ↔
      (xs.length = n + 1 ∧ xs.Pairwise (· < ·) ∧ xs ⊆ alphabet) := by
  induction n with
  | zero =>
      intro xs
      constructor
      · intro hx
        obtain ⟨c, hc, rfl⟩ := List.mem_map.mp hx
        exact ⟨rfl, by simp, by simpa using hc⟩
      · rintro ⟨hlen, _, hsub⟩
        obtain ⟨c, rfl⟩ := List.length_eq_one.mp hlen
        exact List.mem_map.mpr ⟨c, by simpa using hsub, rfl⟩
  | succ n ih =>
      intro xs
      constructor
      · intro hx
        obtain ⟨c, hc, hmem⟩ := List.mem_flatMap.mp hx
        obtain ⟨rest, hrf, rfl⟩ := List.mem_map.mp hmem
        obtain ⟨hrest, hfg⟩ := List.mem_filter.mp hrf
        obtain ⟨hlen, hpw, hsub⟩ := (ih rest).mp hrest
        cases rest with
        | nil => simp at hlen
        | cons r rs =>
            have hcr : c < r := by
              have : decide (c < r) = true := hfg
              exact of_decide_eq_true this
            refine ⟨by simpa using hlen, ?_, List.cons_subset.mpr ⟨hc, hsub⟩⟩
            refine List.pairwise_cons.mpr ⟨?_, hpw⟩
            intro b hb
            rcases List.mem_cons.mp hb with hb | hb
            · exact hb ▸ hcr
            · exact lt_trans hcr ((List.pairwise_cons.mp hpw).1 b hb)
      · rintro ⟨hlen, hpw, hsub⟩
        cases xs with
        | nil => simp at hlen
        | cons c rest =>
            have hc : c ∈ alphabet := hsub (List.mem_cons_self c rest)
            have hrsub : rest ⊆ alphabet := fun x hx =>
              hsub (List.mem_cons_of_mem c hx)
            have hhead := (List.pairwise_cons.mp hpw).1
            have hpw' := (List.pairwise_cons.mp hpw).2
            have hlen' : rest.length = n + 1 := by simpa using hlen
            have hrest : rest ∈ genAllStrings (n + 1) :=
              (ih rest).mpr ⟨hlen', hpw', hrsub⟩
            cases rest with
            | nil => simp at hlen'
            | cons r rs =>
                have hfg : firstGt c (r :: rs) = true :=
                  decide_eq_true (hhead r (List.mem_cons_self r rs))
                exact List.mem_flatMap.mpr
                  ⟨c, hc, List.mem_map.mpr
                    ⟨r :: rs, List.mem_filter.mpr ⟨hrest, hfg⟩, rfl⟩⟩

theorem nodup_genAllStrings (n : Nat) : (genAllStrings (n + 1)).Nodup := by
  induction n with
  | zero =>
      apply List.Nodup.map
      · intro a b hab
        simpa using hab
      · exact alphabet_nodup
  | succ n ih =>
      apply List.nodup_flatMap.mpr
      constructor
      · intro c _
        apply List.Nodup.map
        · intro a b hab
          simpa using hab
        · exact ih.filter _
      · refine alphabet_nodup.imp ?_
        intro a b hne
        intro xs hx1 hx2
        obtain ⟨r1, _, rfl⟩ := List.mem_map.mp hx1
        obtain ⟨r2, _, heq⟩ := List.mem_map.mp hx2
        exact hne (by injection heq with h1 h2; exact h1.symm)

theorem pairwise_lt_sublist_alphabet (xs : List Char)
    (hpw : xs.Pairwise (· < ·)) (hsub : xs ⊆ alphabet) : xs.Sublist alphabet := by
  have hnd : xs.Nodup := hpw.imp (fun h => ne_of_lt h)
  have hsp : xs.Subperm alphabet := hnd.subperm hsub
  exact List.sublist_of_subperm_of_sorted hsp
    (hpw.imp (fun h => le_of_lt h))
    (alphabet_pairwise_lt.imp (fun h => le_of_lt h))

theorem genAllStrings_perm_sublistsLen (n : Nat) :
    (genAllStrings (n + 1)).Perm (List.sublistsLen (n + 1) alphabet) := by
  rw [List.perm_ext_iff_of_nodup (nodup_genAllStrings n)
    (List.nodup_sublistsLen _ alphabet_nodup)]
  intro xs
  rw [mem_genAllStrings n xs, List.mem_sublistsLen]
  constructor
  · rintro ⟨hlen, hpw, hsub⟩
    exact ⟨pairwise_lt_sublist_alphabet xs hpw hsub, hlen⟩
  · rintro ⟨hsl, hlen⟩
    exact ⟨hlen, alphabet_pairwise_lt.sublist hsl, hsl.subset⟩

theorem length_genAllStrings (n : Nat) (h : 1 ≤ n) :
    (genAllStrings n).length = Nat.choose 26 n := by
  obtain ⟨m, rfl⟩ : ∃ m, n = m + 1 := ⟨n - 1, by omega⟩
  rw [(genAllStrings_perm_sublistsLen m).length_eq, List.length_sublistsLen]
  rfl

/-- C1: for every `n ≥ 1` the Combination Generator emits exactly
`C(26, n)` strings, each of length `n` with strictly increasing letters, with
no duplicate anywhere in the sequence; for `n > 26` the sequence is empty. -/
theorem claim_C1_combination_generator (n : Nat) (h : 1 ≤ n) :
    (genAllStrings n).length = Nat.choose 26 n ∧
    (∀ xs ∈ genAllStrings n, xs.length = n ∧ xs.Pairwise (· < ·)) ∧
    (genAllStrings n).Nodup ∧
    (∀ m : Nat, 26 < m → genAllStrings m = []) := by
  obtain ⟨k, rfl⟩ : ∃ k, n = k + 1 := ⟨n - 1, by omega⟩
  refine ⟨length_genAllStrings (k + 1) h, ?_, nodup_genAllStrings k, ?_⟩
  · intro xs hx
    obtain ⟨hlen, hpw, -⟩ := (mem_genAllStrings k xs).mp hx
    exact ⟨hlen, hpw⟩
  · intro m hm
    have h1 : 1 ≤ m := by omega
    have hlen := length_genAllStrings m h1
    rw [Nat.choose_eq_zero_of_lt hm] at hlen
    exact List.eq_nil_of_length_eq_zero hlen

theorem claim_C1_witness :
    1 ≤ 1 ∧
      ((genAllStrings 1).length = Nat.choose 26 1 ∧
        (∀ xs ∈ genAllStrings 1, xs.length = 1 ∧ xs.Pairwise (· < ·)) ∧
        (genAllStrings 1).Nodup ∧
        (∀ m : Nat, 26 < m → genAllStrings m = [])) :=
  ⟨Nat.le_refl 1, claim_C1_combination_generator 1 (Nat.le_refl 1)⟩

end SpellingBee
